import Mathlib

/-!
Verification of the cleaning + EDA-summary core of the
autonomous-data-intelligence-agent repository.

The data model is a shallow embedding of a pandas DataFrame restricted to
what the pipeline observes: an ordered list of named columns, each with a
dtype-like kind (numeric, object, or other) and a list of cells.  Missing
values (NaN/None/NaT) are the cell `Cell.na`.  Numeric values are modelled
as rationals (the float computations of the source are exact on them, and
the proved properties are ordering/equality facts that match the float
behaviour on the inputs considered).  Functions mirror `src/pipeline.py`
(`simple_clean_dataframe`, `compute_eda_summary`) and `src/llm_utils.py`
(`generate_eda_report_markdown`).
-/

/-- A single cell of a column: a numeric value, a string value, some other
non-numeric non-string value (e.g. a datetime, abstracted by a tag), or a
missing value (pandas NaN/None/NaT). -/
inductive Cell where
  | num (q : ℚ)
  | str (s : String)
  | other (n : ℕ)
  | na
deriving DecidableEq, Repr

/-- The dtype-based classification a column gets from
`select_dtypes(include=[np.number])` / `select_dtypes(include=["object"])`:
numeric, object (text/categorical), or anything else. -/
inductive ColKind where
  | numeric
  | object
  | other
deriving DecidableEq, Repr

/-- A named column with its dtype kind and cells. -/
structure Col where
  name : String
  kind : ColKind
  cells : List Cell
deriving DecidableEq, Repr

/-- A dataframe: an explicit row count plus the ordered list of columns.
The row count is stored explicitly so that a frame with zero columns still
has a shape, as in pandas. -/
structure DF where
  nrows : ℕ
  cols : List Col
deriving DecidableEq, Repr

/-- Is the cell missing? (`pd.isnull`). -/
def Cell.isNA : Cell → Bool
  | .na => true
  | _ => false

/-- A cell is allowed in a column of the given kind: numeric columns hold
numbers or missing, object columns hold strings or missing, other columns
hold other values or missing. -/
def kindOK : ColKind → Cell → Bool
  | .numeric, .num _ => true
  | .object, .str _ => true
  | .other, .other _ => true
  | _, .na => true
  | _, _ => false

/-- Well-formedness of a column for a frame with `n` rows. -/
def Col.ok (n : ℕ) (c : Col) : Prop :=
  c.cells.length = n ∧ ∀ x ∈ c.cells, kindOK c.kind x = true

instance (n : ℕ) (c : Col) : Decidable (c.ok n) := by
  unfold Col.ok
  infer_instance

/-- Well-formedness of a dataframe: unique column names and every column
has the frame's row count with kind-consistent cells. -/
def DF.WF (df : DF) : Prop :=
  (df.cols.map Col.name).Nodup ∧ ∀ c ∈ df.cols, c.ok df.nrows

instance (df : DF) : Decidable df.WF := by
  unfold DF.WF
  infer_instance

/-- Number of missing entries in a column (`df[col].isnull().sum()`). -/
def missingCount (c : Col) : ℕ :=
  c.cells.countP (·.isNA)

/-- The non-missing numeric values of a column, in row order. -/
def numsOf (c : Col) : List ℚ :=
  c.cells.filterMap (fun x => match x with | .num q => some q | _ => none)

/-- The non-missing string values of a column, in row order. -/
def strsOf (c : Col) : List String :=
  c.cells.filterMap (fun x => match x with | .str s => some s | _ => none)

/-- Keep the first occurrence of each element, dropping later duplicates
(the semantics of pandas `drop_duplicates` / insertion-ordered hash
tables).  `seen` accumulates the elements already emitted. -/
def dedupAux [DecidableEq α] (seen : List α) : List α → List α
  | [] => []
  | x :: xs => if x ∈ seen then dedupAux seen xs else x :: dedupAux (x :: seen) xs

/-- Distinct elements of a list in order of first occurrence. -/
def dedupFirst [DecidableEq α] (l : List α) : List α :=
  dedupAux [] l

/-- Ordered insert for insertion sort, parametrised by a boolean
less-or-equal test. -/
def insertB (le : α → α → Bool) (x : α) : List α → List α
  | [] => [x]
  | y :: ys => if le x y then x :: y :: ys else y :: insertB le x ys

/-- Stable insertion sort parametrised by a boolean less-or-equal test. -/
def sortB (le : α → α → Bool) : List α → List α
  | [] => []
  | x :: xs => insertB le x (sortB le xs)

/-- Median of a list of numbers, skipping nothing (callers pass the
non-missing values): sort ascending and take the middle element, or the
mean of the two middle elements for an even count; undefined (`none`) for
an empty list.  This is `pandas.Series.median()` over the non-missing
values. -/
def median (xs : List ℚ) : Option ℚ :=
  let s := sortB (fun a b => decide (a ≤ b)) xs
  let n := s.length
  if n = 0 then none
  else if n % 2 = 1 then s[n / 2]?
  else
    match s[n / 2 - 1]?, s[n / 2]? with
    | some a, some b => some ((a + b) / 2)
    | _, _ => none

/-- `pandas.Series.mode()` over the non-missing string values: the values
attaining the maximal occurrence count, returned sorted in ascending
order (pandas sorts the modes). -/
def modeList (xs : List String) : List String :=
  sortB (fun a b => decide (a ≤ b))
    ((dedupFirst xs).filter (fun v => decide (∀ w ∈ xs, xs.count w ≤ xs.count v)))

/-- `pandas.Series.value_counts()` over the non-missing string values:
distinct values with their occurrence counts, sorted by descending count;
the sort is stable over the first-seen order of the distinct values. -/
def value_counts (xs : List String) : List (String × ℕ) :=
  sortB (fun p q => decide (q.2 ≤ p.2))
    ((dedupFirst xs).map (fun v => (v, xs.count v)))

/-- Step 1 of `simple_clean_dataframe` (pipeline.py lines 179-183): drop
the columns whose missing ratio `isnull().mean()` strictly exceeds 0.8.
With zero rows the pandas mean is NaN and `NaN > 0.8` is false; rational
division by zero yields 0, which gives the same "keep" outcome. -/
def pruneCols (df : DF) : DF :=
  { df with
    cols := df.cols.filter (fun c => !decide ((4 : ℚ) / 5 < (missingCount c : ℚ) / (df.nrows : ℚ))) }

/-- Step 2 of `simple_clean_dataframe` (lines 185-189): fill the missing
entries of a numeric column with the column's median; if the column has no
non-missing value the median is NaN and `fillna(NaN)` changes nothing. -/
def fillColNumeric (c : Col) : Col :=
  if c.kind = ColKind.numeric then
    match median (numsOf c) with
    | none => c
    | some m => { c with cells := c.cells.map (fun x => if x.isNA then Cell.num m else x) }
  else c

/-- Step 3 of `simple_clean_dataframe` (lines 191-197): if an object
column has a missing entry, fill the missing entries with the first listed
mode, falling back to the literal string "Unknown" when there is no
mode. -/
def fillColObject (c : Col) : Col :=
  if c.kind = ColKind.object ∧ 0 < missingCount c then
    { c with
      cells := c.cells.map
        (fun x => if x.isNA then Cell.str ((modeList (strsOf c)).headD "Unknown") else x) }
  else c

/-- Row `j` of the frame: the `j`-th cell of every column, in column
order.  Out-of-range reads default to missing (never hit on well-formed
frames). -/
def DF.row (df : DF) (j : ℕ) : List Cell :=
  df.cols.map (fun c => c.cells.getD j Cell.na)

/-- All rows of the frame, in order. -/
def DF.rowsOf (df : DF) : List (List Cell) :=
  (List.range df.nrows).map df.row

/-- Rebuild a frame with the same column names and kinds from an explicit
list of rows. -/
def rebuild (df : DF) (rs : List (List Cell)) : DF :=
  { nrows := rs.length,
    cols := df.cols.enum.map (fun ic => { ic.2 with cells := rs.map (fun r => r.getD ic.1 Cell.na) }) }

/-- Step 4 of `simple_clean_dataframe` (line 200): `drop_duplicates` —
keep the first occurrence of each distinct row. -/
def dropDuplicates (df : DF) : DF :=
  rebuild df (dedupFirst df.rowsOf)

/-- `simple_clean_dataframe` (pipeline.py lines 166-202): prune
mostly-missing columns, median-fill numeric columns, mode-fill object
columns, drop duplicate rows. -/
def simple_clean_dataframe (df : DF) : DF :=
  let p1 := pruneCols df
  let p2 := { p1 with cols := p1.cols.map fillColNumeric }
  let p3 := { p2 with cols := p2.cols.map fillColObject }
  dropDuplicates p3

/-- The `shape` entry of `compute_eda_summary` (pipeline.py lines
121-124), with its literal dictionary keys. -/
def eda_shape (df : DF) : List (String × ℕ) :=
  [("rows", df.nrows), ("columns", df.cols.length)]

/-- The `missing_values` entry of `compute_eda_summary` (lines 132-140):
for each column with at least one missing value, a record with keys
"count" and "pct" (count of nulls and percentage of rows). -/
def eda_missing_values (df : DF) : List (String × List (String × ℚ)) :=
  df.cols.filterMap (fun c =>
    if 0 < missingCount c then
      some (c.name,
        [("count", (missingCount c : ℚ)),
         ("pct", (missingCount c : ℚ) / (df.nrows : ℚ) * 100)])
    else none)

/-- The numeric columns of the frame
(`df.select_dtypes(include=[np.number])`). -/
def numericCols (df : DF) : List Col :=
  df.cols.filter (fun c => c.kind = ColKind.numeric)

/-- The `categorical_top_values` entry of `compute_eda_summary` (lines
148-151): for each object column, `value_counts().head(max_categories)`
as an ordered association list. -/
def eda_categorical_top_values (df : DF) (max_categories : ℕ) :
    List (String × List (String × ℕ)) :=
  (df.cols.filter (fun c => c.kind = ColKind.object)).map
    (fun c => (c.name, (value_counts (strsOf c)).take max_categories))

/-- The rows where both columns are non-missing numeric, as value pairs
(pandas computes pairwise-complete correlations). -/
def pairedObs (a b : Col) : List (ℚ × ℚ) :=
  (a.cells.zip b.cells).filterMap
    (fun xy => match xy with | (.num x, .num y) => some (x, y) | _ => none)

/-- The exact ingredients of the Pearson correlation of two columns over
their pairwise-complete observations: `none` models the NaN result (no
paired observation, or a zero variance making the divisor zero), otherwise
`some (cov, den)` where the correlation value is `cov / sqrt den`, with
`cov = n·Σxy − Σx·Σy` and `den = (n·Σx² − (Σx)²)·(n·Σy² − (Σy)²)` — the
`pandas.DataFrame.corr` computation with the common positive factors left
uncancelled. -/
def corrStat (a b : Col) : Option (ℚ × ℚ) :=
  let ps := pairedObs a b
  let n : ℚ := (ps.length : ℚ)
  if ps.length = 0 then none
  else
    let sx := (ps.map (fun p => p.1)).sum
    let sy := (ps.map (fun p => p.2)).sum
    let sxy := (ps.map (fun p => p.1 * p.2)).sum
    let sxx := (ps.map (fun p => p.1 * p.1)).sum
    let syy := (ps.map (fun p => p.2 * p.2)).sum
    let vx := n * sxx - sx * sx
    let vy := n * syy - sy * sy
    if vx * vy = 0 then none else some (n * sxy - sx * sy, vx * vy)

/-- The Pearson correlation of two columns as a real number, `none` for
the NaN cases.  The square root forces the value into `ℝ`; the
computable `corrStat` carries the exact rational ingredients. -/
noncomputable def corr (a b : Col) : Option ℝ :=
  (corrStat a b).map (fun p => (p.1 : ℝ) / Real.sqrt (p.2 : ℝ))

/-- The `correlations` entry of `compute_eda_summary` (lines 154-157):
`df[numeric_cols].corr().to_dict()`, populated only when at least two
numeric columns exist. -/
noncomputable def eda_correlations (df : DF) : List (String × List (String × Option ℝ)) :=
  let ncs := numericCols df
  if 2 ≤ ncs.length then
    ncs.map (fun a => (a.name, ncs.map (fun b => (b.name, corr a b))))
  else []

/-- Lookup `correlations[x][y]` in the summary: `none` when either key is
absent, otherwise the stored coefficient (itself an `Option` standing for
a possibly-NaN float). -/
noncomputable def getCorr (df : DF) (x y : String) : Option (Option ℝ) :=
  match (eda_correlations df).find? (fun p => p.1 == x) with
  | none => none
  | some p => (p.2.find? (fun q => q.1 == y)).map (fun q => q.2)

/-- The process environment as seen by `llm_utils.py`: the value of the
GOOGLE_API_KEY variable, `none` when unset. -/
structure Env where
  googleApiKey : Option String
deriving DecidableEq

/-- One candidate of a Gemini response: the text of each part of its
content (`part.get("text", "")`, so an absent text key is the empty
string; an absent content key is the empty part list). -/
structure Candidate where
  parts : List String
deriving DecidableEq

/-- The parsed JSON body of a successful Gemini HTTP response:
`data.get("candidates", [])`. -/
structure GeminiData where
  candidates : List Candidate
deriving DecidableEq

/-- A crude textual rendering of the parsed response, standing for the
Python `{data}` interpolation in the failure messages. -/
def renderData (d : GeminiData) : String :=
  "candidates: [" ++
    String.intercalate ", "
      (d.candidates.map (fun c => "parts: [" ++ String.intercalate ", " c.parts ++ "]")) ++
  "]"

/-- The outcome of the `requests.post` call in `_call_gemini_http`: an
HTTP error status (raised by `raise_for_status`, carrying the exception
text and the response body), any other exception (network error, invalid
JSON, ...), or a parsed JSON body. -/
inductive HttpOutcome where
  | httpError (msg body : String)
  | exnRaised (msg : String)
  | okData (data : GeminiData)
deriving DecidableEq

/-- `_ensure_api_key` (llm_utils.py lines 25-33): return the key, or
raise RuntimeError when the variable is unset or empty (`if not
api_key`).  `Except.error` models the raised exception. -/
def ensure_api_key (env : Env) : Except String String :=
  match env.googleApiKey with
  | none =>
      Except.error
        "GOOGLE_API_KEY environment variable is not set. Set it before running the pipeline."
  | some k =>
      if k = "" then
        Except.error
          "GOOGLE_API_KEY environment variable is not set. Set it before running the pipeline."
      else Except.ok k

/-- `_call_gemini_http` (llm_utils.py lines 36-91).  The API-key check
happens before the try block, so its exception propagates; every failure
inside the try block is converted to a descriptive string that is
returned normally. -/
def call_gemini_http (env : Env) (out : HttpOutcome) : Except String String :=
  match ensure_api_key env with
  | Except.error e => Except.error e
  | Except.ok _ =>
      Except.ok
        (match out with
         | .httpError m b =>
             "LLM EDA report generation failed (HTTP error): " ++ m ++ ", body=" ++ b
         | .exnRaised m =>
             "LLM EDA report generation failed (unexpected error): " ++ m
         | .okData data =>
             match data.candidates with
             | [] => "LLM EDA report generation failed: no candidates in response: " ++ renderData data
             | c :: _ =>
                 match c.parts with
                 | [] => "LLM EDA report generation failed: no parts in response: " ++ renderData data
                 | t :: _ =>
                     if t = "" then
                       "LLM EDA report generation failed: empty text in response: " ++ renderData data
                     else t)

/-- `generate_eda_report_markdown` (llm_utils.py lines 94-117): build a
prompt from the summary and delegate to `_call_gemini_http`.  The prompt
content does not influence the control flow, which is fully determined by
the environment and the HTTP outcome. -/
def generate_eda_report_markdown (summary : String) (env : Env) (out : HttpOutcome) :
    Except String String :=
  call_gemini_http env out

/-- The successfully extracted text of a response, when the code's parse
succeeds: first part of the first candidate, non-empty. -/
def successText : HttpOutcome → Option String
  | .okData data =>
      match data.candidates with
      | [] => none
      | c :: _ =>
          match c.parts with
          | [] => none
          | t :: _ => if t = "" then none else some t
  | _ => none

/-- Modelled from the spec: the tie-break rule the specification claims
for the categorical mode — among the values attaining the maximal count,
the one whose first occurrence comes earliest in row order.  Compared
against the source's `modeList`, which sorts the tied modes. -/
def firstSeenModeSpec (xs : List String) : Option String :=
  ((dedupFirst xs).filter (fun v => decide (∀ w ∈ xs, xs.count w ≤ xs.count v))).head?

/-- The condition under which the categorical imputation step of
`simple_clean_dataframe` resorts to the literal fallback value "Unknown":
some object column of the frame reaching step 3 (after pruning and
numeric filling) has a missing entry but an empty mode list. -/
def unknownFallbackUsed (df : DF) : Prop :=
  ∃ c ∈ (pruneCols df).cols.map fillColNumeric,
    c.kind = ColKind.object ∧ 0 < missingCount c ∧ modeList (strsOf c) = []

/-- Concrete frame for the idempotence counterexample: a datetime-like
("other" kind) column with 5 of 7 values missing next to a numeric column
whose last two rows duplicate each other. -/
def dfC1 : DF :=
  ⟨7, [⟨"d", ColKind.other,
        [Cell.na, Cell.na, Cell.na, Cell.na, Cell.na, Cell.other 1, Cell.other 1]⟩,
       ⟨"x", ColKind.numeric,
        [Cell.num 1, Cell.num 2, Cell.num 3, Cell.num 4, Cell.num 5, Cell.num 6, Cell.num 6]⟩]⟩

/-- Concrete frame for the mode tie-break counterexample: the object
column has the tied modes "a" and "b", with "b" appearing first in row
order; the numeric column keeps the rows distinct. -/
def dfC4 : DF :=
  ⟨5, [⟨"x", ColKind.numeric,
        [Cell.num 1, Cell.num 2, Cell.num 3, Cell.num 4, Cell.num 5]⟩,
       ⟨"c", ColKind.object,
        [Cell.str "b", Cell.str "b", Cell.str "a", Cell.str "a", Cell.na]⟩]⟩

/-- The object column of `dfC4` on its own, used to witness the amended
mode-fill theorem. -/
def colC4 : Col :=
  ⟨"c", ColKind.object,
   [Cell.str "b", Cell.str "b", Cell.str "a", Cell.str "a", Cell.na]⟩

/-- A small well-formed frame with one numeric column (one missing value)
and one object column (no missing value), used to witness the universally
quantified theorems at a concrete input. -/
def dfW : DF :=
  ⟨3, [⟨"x", ColKind.numeric, [Cell.num 1, Cell.num 2, Cell.na]⟩,
       ⟨"c", ColKind.object, [Cell.str "a", Cell.str "a", Cell.str "b"]⟩]⟩

/-! ### Basic arithmetic and list lemmas -/

/-- The boolean keep-test of `pruneCols`, characterised by natural-number
arithmetic: a column is kept iff the frame has no rows (the NaN mean
compares false) or its missing count is at most 80 percent of the rows. -/
lemma ratio_keep_iff (m n : ℕ) :
    ¬ ((4 : ℚ) / 5 < (m : ℚ) / (n : ℚ)) ↔ (n = 0 ∨ 5 * m ≤ 4 * n) := by
  rcases Nat.eq_zero_or_pos n with h0 | hpos
  · subst h0
    simp
    norm_num
  · have hn : (0 : ℚ) < (n : ℚ) := by exact_mod_cast hpos
    rw [not_lt, div_le_div_iff₀ hn (by norm_num)]
    constructor
    · intro h
      right
      have : (5 * m : ℚ) ≤ (4 * n : ℚ) := by linarith
      exact_mod_cast this
    · rintro (h | h)
      · omega
      · have : (5 * m : ℚ) ≤ (4 * n : ℚ) := by exact_mod_cast h
        push_cast at this
        linarith

/-- A map whose function fixes every member of the list is the
identity. -/
lemma map_id_on {α : Type} (f : α → α) (l : List α) (h : ∀ x ∈ l, f x = x) :
    l.map f = l := by
  induction l with
  | nil => rfl
  | cons x xs ih =>
      simp only [List.map_cons]
      rw [h x (by simp), ih (fun y hy => h y (by simp [hy]))]

/-- Every element produced by `dedupAux` comes from the input list. -/
lemma mem_of_mem_dedupAux [DecidableEq α] {seen l : List α} {x : α}
    (h : x ∈ dedupAux seen l) : x ∈ l := by
  induction l generalizing seen with
  | nil => simpa [dedupAux] using h
  | cons y ys ih =>
      by_cases hy : y ∈ seen
      · simp only [dedupAux, if_pos hy] at h
        exact List.mem_cons_of_mem _ (ih h)
      · simp only [dedupAux, if_neg hy] at h
        rcases List.mem_cons.mp h with h | h
        · exact h ▸ List.mem_cons_self _ _
        · exact List.mem_cons_of_mem _ (ih h)

/-- Elements already seen are never produced by `dedupAux`. -/
lemma not_seen_of_mem_dedupAux [DecidableEq α] {seen l : List α} {x : α}
    (h : x ∈ dedupAux seen l) : x ∉ seen := by
  induction l generalizing seen with
  | nil => simp [dedupAux] at h
  | cons y ys ih =>
      by_cases hy : y ∈ seen
      · simp only [dedupAux, if_pos hy] at h
        exact ih h
      · simp only [dedupAux, if_neg hy] at h
        rcases List.mem_cons.mp h with h | h
        · exact h ▸ hy
        · intro hx
          exact ih h (List.mem_cons_of_mem _ hx)

/-- `dedupAux` produces a list without duplicates. -/
lemma nodup_dedupAux [DecidableEq α] (seen l : List α) :
    (dedupAux seen l).Nodup := by
  induction l generalizing seen with
  | nil => simp [dedupAux]
  | cons y ys ih =>
      by_cases hy : y ∈ seen
      · simpa [dedupAux, if_pos hy] using ih seen
      · simp only [dedupAux, if_neg hy]
        refine List.nodup_cons.mpr ⟨?_, ih (y :: seen)⟩
        intro hmem
        exact not_seen_of_mem_dedupAux hmem (List.mem_cons_self _ _)

/-- On a list without duplicates whose elements avoid `seen`, `dedupAux`
is the identity. -/
lemma dedupAux_eq_self [DecidableEq α] (seen l : List α)
    (hnd : l.Nodup) (hdisj : ∀ x ∈ l, x ∉ seen) : dedupAux seen l = l := by
  induction l generalizing seen with
  | nil => rfl
  | cons y ys ih =>
      have hy : y ∉ seen := hdisj y (by simp)
      simp only [dedupAux, if_neg hy]
      congr 1
      refine ih (y :: seen) (List.nodup_cons.mp hnd).2 ?_
      intro x hx
      intro hmem
      rcases List.mem_cons.mp hmem with h | h
      · exact (List.nodup_cons.mp hnd).1 (h ▸ hx)
      · exact hdisj x (by simp [hx]) h

/-- `dedupFirst` of a duplicate-free list is the list itself. -/
lemma dedupFirst_eq_self [DecidableEq α] (l : List α) (hnd : l.Nodup) :
    dedupFirst l = l :=
  dedupAux_eq_self [] l hnd (by simp)

/-- Membership is preserved into `dedupAux` for elements not yet seen. -/
lemma mem_dedupAux_of_mem [DecidableEq α] {l : List α} {x : α} (h : x ∈ l) :
    ∀ seen : List α, x ∉ seen → x ∈ dedupAux seen l := by
  induction l with
  | nil => cases h
  | cons y ys ih =>
      intro seen hseen
      by_cases hy : y ∈ seen
      · rcases List.mem_cons.mp h with hx | hx
        · exact absurd (hx ▸ hy) hseen
        · simpa [dedupAux, if_pos hy] using ih hx seen hseen
      · simp only [dedupAux, if_neg hy]
        by_cases hxy : x = y
        · exact hxy ▸ List.mem_cons_self _ _
        · rcases List.mem_cons.mp h with hx | hx
          · exact absurd hx hxy
          · exact List.mem_cons_of_mem _ (ih hx (y :: seen) (by simp [hxy, hseen]))

/-- Membership is preserved in the `dedupFirst` direction. -/
lemma mem_dedupFirst_of_mem [DecidableEq α] {l : List α} {x : α} (h : x ∈ l) :
    x ∈ dedupFirst l :=
  mem_dedupAux_of_mem h [] (by simp)

/-- `insertB` permutes the cons. -/
lemma insertB_perm (le : α → α → Bool) (x : α) (l : List α) :
    List.Perm (insertB le x l) (x :: l) := by
  induction l with
  | nil => rfl
  | cons y ys ih =>
      by_cases h : le x y
      · simp [insertB, h]
      · simp only [insertB, if_neg h]
        exact (ih.cons y).trans (List.Perm.swap x y ys)

/-- `sortB` permutes its input. -/
lemma sortB_perm (le : α → α → Bool) (l : List α) : List.Perm (sortB le l) l := by
  induction l with
  | nil => rfl
  | cons x xs ih => exact (insertB_perm le x (sortB le xs)).trans (ih.cons x)

/-- Membership in a `sortB` result. -/
lemma mem_sortB (le : α → α → Bool) (l : List α) (z : α) :
    z ∈ sortB le l ↔ z ∈ l :=
  (sortB_perm le l).mem_iff

/-- `sortB` preserves length. -/
lemma length_sortB (le : α → α → Bool) (l : List α) :
    (sortB le l).length = l.length :=
  (sortB_perm le l).length_eq

/-- Inserting into a list sorted by a transitive total boolean order keeps
it sorted. -/
lemma pairwise_insertB (le : α → α → Bool)
    (htrans : ∀ a b c, le a b = true → le b c = true → le a c = true)
    (htot : ∀ a b, le a b = true ∨ le b a = true)
    (x : α) (l : List α) (hl : l.Pairwise (fun a b => le a b = true)) :
    (insertB le x l).Pairwise (fun a b => le a b = true) := by
  induction l with
  | nil => simp [insertB]
  | cons y ys ih =>
      rcases List.pairwise_cons.mp hl with ⟨hy, hys⟩
      by_cases h : le x y
      · simp only [insertB, if_pos h]
        refine List.pairwise_cons.mpr ⟨?_, hl⟩
        intro z hz
        rcases List.mem_cons.mp hz with hz | hz
        · exact hz ▸ h
        · exact htrans x y z h (hy z hz)
      · simp only [insertB, if_neg h]
        refine List.pairwise_cons.mpr ⟨?_, ih hys⟩
        intro z hz
        rcases List.mem_cons.mp ((insertB_perm le x ys).mem_iff.mp hz) with hz | hz
        · rw [hz]
          exact (htot x y).resolve_left h
        · exact hy z hz

/-- The output of `sortB` is sorted for a transitive total boolean
order. -/
lemma pairwise_sortB (le : α → α → Bool)
    (htrans : ∀ a b c, le a b = true → le b c = true → le a c = true)
    (htot : ∀ a b, le a b = true ∨ le b a = true)
    (l : List α) : (sortB le l).Pairwise (fun a b => le a b = true) := by
  induction l with
  | nil => simp [sortB]
  | cons x xs ih => exact pairwise_insertB le htrans htot x (sortB le xs) ih

/-- Stability of `insertB`: inserting an element related by `S` to all of
a sorted list whose pairs already satisfy the combined relation `R`
preserves `R`-pairwiseness, where `R` holds along the boolean order when
`S` does, and against it unconditionally. -/
lemma pairwise_lex_insertB (le : α → α → Bool) (R S : α → α → Prop)
    (htrans : ∀ a b c, le a b = true → le b c = true → le a c = true)
    (htot : ∀ a b, le a b = true ∨ le b a = true)
    (hRS : ∀ a b, le a b = true → S a b → R a b)
    (hRflip : ∀ a b, le a b ≠ true → R b a)
    (x : α) (l : List α)
    (hsor : l.Pairwise (fun a b => le a b = true))
    (hR : l.Pairwise R) (hS : ∀ y ∈ l, S x y) :
    (insertB le x l).Pairwise R := by
  induction l with
  | nil => simp [insertB]
  | cons y ys ih =>
      rcases List.pairwise_cons.mp hsor with ⟨hsy, hsys⟩
      rcases List.pairwise_cons.mp hR with ⟨hRy, hRys⟩
      by_cases h : le x y
      · simp only [insertB, if_pos h]
        refine List.pairwise_cons.mpr ⟨?_, hR⟩
        intro z hz
        rcases List.mem_cons.mp hz with hz | hz
        · exact hz ▸ hRS x y h (hS y (by simp))
        · exact hRS x z (htrans x y z h (hsy z hz)) (hS z (by simp [hz]))
      · simp only [insertB, if_neg h]
        refine List.pairwise_cons.mpr ⟨?_, ?_⟩
        · intro z hz
          rcases List.mem_cons.mp ((insertB_perm le x ys).mem_iff.mp hz) with hz | hz
          · exact hz ▸ hRflip x y (by simpa using h)
          · exact hRy z hz
        · exact ih hsys hRys (fun z hz => hS z (by simp [hz]))

/-- Stability of `sortB`: sorting a list whose pairs satisfy `S` yields a
list whose pairs satisfy `R`, where `R` holds along the boolean order when
`S` does, and against it unconditionally. -/
lemma pairwise_lex_sortB (le : α → α → Bool) (R S : α → α → Prop)
    (htrans : ∀ a b c, le a b = true → le b c = true → le a c = true)
    (htot : ∀ a b, le a b = true ∨ le b a = true)
    (hRS : ∀ a b, le a b = true → S a b → R a b)
    (hRflip : ∀ a b, le a b ≠ true → R b a)
    (l : List α) (hS : l.Pairwise S) :
    (sortB le l).Pairwise R := by
  induction l with
  | nil => simp [sortB]
  | cons x xs ih =>
      rcases List.pairwise_cons.mp hS with ⟨hSx, hSxs⟩
      exact pairwise_lex_insertB le R S htrans htot hRS hRflip x (sortB le xs)
        (pairwise_sortB le htrans htot xs) (ih hSxs)
        (fun y hy => hSx y ((sortB_perm le xs).mem_iff.mp hy))

/-- Any nonempty list has an element maximising a natural measure. -/
lemma exists_max_measure {α : Type} (f : α → ℕ) (l : List α) (h : l ≠ []) :
    ∃ v ∈ l, ∀ w ∈ l, f w ≤ f v := by
  induction l with
  | nil => exact absurd rfl h
  | cons x xs ih =>
      rcases xs with _ | ⟨y, ys⟩
      · exact ⟨x, by simp, by simp⟩
      · obtain ⟨v, hv, hmax⟩ := ih (by simp)
        by_cases hc : f v ≤ f x
        · refine ⟨x, by simp, ?_⟩
          intro w hw
          rcases List.mem_cons.mp hw with hw | hw
          · rw [hw]
          · exact le_trans (hmax w hw) hc
        · refine ⟨v, by simp [hv], ?_⟩
          intro w hw
          rcases List.mem_cons.mp hw with hw | hw
          · rw [hw]; exact le_of_not_le hc
          · exact hmax w hw

/-- A nonempty value list has a nonempty mode list. -/
lemma modeList_ne_nil (xs : List String) (h : xs ≠ []) : modeList xs ≠ [] := by
  obtain ⟨v, hv, hmax⟩ := exists_max_measure (xs.count ·) xs h
  have hmem : v ∈ (dedupFirst xs).filter
      (fun v => decide (∀ w ∈ xs, xs.count w ≤ xs.count v)) :=
    List.mem_filter.mpr ⟨mem_dedupFirst_of_mem hv, by simpa using hmax⟩
  intro hcon
  unfold modeList at hcon
  have := length_sortB (fun a b => decide (a ≤ b))
    ((dedupFirst xs).filter (fun v => decide (∀ w ∈ xs, xs.count w ≤ xs.count v)))
  rw [hcon] at this
  exact absurd (List.length_eq_zero.mp this.symm ▸ hmem) (List.not_mem_nil v)

/-- The head of a pairwise-related list is related to every other
member. -/
lemma head_rel_of_pairwise {R : α → α → Prop} {l : List α} {v : α}
    (hp : l.Pairwise R) (hv : l.head? = some v) {w : α} (hw : w ∈ l) :
    v = w ∨ R v w := by
  cases l with
  | nil => cases hv
  | cons a as =>
      have hva : v = a := by simpa using hv.symm
      rcases List.mem_cons.mp hw with hw | hw
      · exact Or.inl (hva.trans hw.symm)
      · exact Or.inr (hva ▸ (List.pairwise_cons.mp hp).1 w hw)

/-- Transitivity of the boolean string order. -/
lemma strLE_trans (a b c : String)
    (hab : decide (a ≤ b) = true) (hbc : decide (b ≤ c) = true) :
    decide (a ≤ c) = true := by
  simp only [decide_eq_true_eq] at *
  exact le_trans hab hbc

/-- Totality of the boolean string order. -/
lemma strLE_tot (a b : String) :
    decide (a ≤ b) = true ∨ decide (b ≤ a) = true := by
  simp only [decide_eq_true_eq]
  exact le_total a b

/-- The first listed mode is a mode of minimal string value: it occurs in
the data, its count is maximal, and it is at most every equally frequent
value. -/
lemma modeList_head_min (xs : List String) (h : xs ≠ []) :
    ∃ v, (modeList xs).headD "Unknown" = v ∧ v ∈ xs ∧
      (∀ w ∈ xs, xs.count w ≤ xs.count v) ∧
      (∀ w ∈ xs, xs.count w = xs.count v → v ≤ w) := by
  have hne := modeList_ne_nil xs h
  rcases hhead : (modeList xs).head? with _ | v
  · exact absurd (List.head?_eq_none_iff.mp hhead) hne
  refine ⟨v, ?_, ?_, ?_, ?_⟩
  · rw [List.headD_eq_head?_getD, hhead]
    rfl
  · have hv : v ∈ modeList xs := List.mem_of_mem_head? hhead
    have hvf := List.mem_filter.mp ((mem_sortB _ _ v).mp hv)
    exact mem_of_mem_dedupAux hvf.1
  · intro w hw
    have hv : v ∈ modeList xs := List.mem_of_mem_head? hhead
    have hvf := List.mem_filter.mp ((mem_sortB _ _ v).mp hv)
    have := of_decide_eq_true hvf.2
    exact this w hw
  · intro w hw hcnt
    have hv : v ∈ modeList xs := List.mem_of_mem_head? hhead
    have hvf := List.mem_filter.mp ((mem_sortB _ _ v).mp hv)
    have hwf : w ∈ (dedupFirst xs).filter
        (fun u => decide (∀ z ∈ xs, xs.count z ≤ xs.count u)) := by
      refine List.mem_filter.mpr ⟨mem_dedupFirst_of_mem hw, ?_⟩
      refine decide_eq_true ?_
      intro z hz
      rw [hcnt]
      exact of_decide_eq_true hvf.2 z hz
    have hwm : w ∈ modeList xs := (mem_sortB _ _ w).mpr hwf
    have hp := pairwise_sortB (fun a b => decide (a ≤ b)) strLE_trans strLE_tot
      ((dedupFirst xs).filter (fun u => decide (∀ z ∈ xs, xs.count z ≤ xs.count u)))
    rcases head_rel_of_pairwise hp hhead hwm with hvw | hvw
    · exact hvw ▸ le_refl v
    · exact of_decide_eq_true hvw

/-! ### Claim C3: the column-pruning criterion -/

/-- Claim C3: `simple_clean_dataframe` prunes exactly the columns whose
missing fraction strictly exceeds 0.8 — a column of the input frame
survives pruning iff the frame has zero rows (pruning is skipped
entirely, matching the NaN mean) or its missing count is at most 80
percent of the row count; in particular a column with exactly 80 percent
missing values is retained. -/
theorem prune_keeps_iff (df : DF) (c : Col) :
    c ∈ (pruneCols df).cols ↔
      c ∈ df.cols ∧ (df.nrows = 0 ∨ 5 * missingCount c ≤ 4 * df.nrows) := by
  unfold pruneCols
  simp only [List.mem_filter, Bool.not_eq_true', decide_eq_false_iff_not]
  exact and_congr_right (fun _ => ratio_keep_iff (missingCount c) df.nrows)

/-! ### Claim C4: the categorical mode fill and its tie-break -/

/-- Claim C4 counterexample: in `dfC4` the object column has two tied
modes, "a" and "b"; the first one in original row order is "b" (as
`firstSeenModeSpec` computes), yet the cleaned frame holds "a" in the
filled cell, because `pandas.Series.mode` returns the tied modes sorted
and the code takes the first of the sorted list. -/
theorem mode_tiebreak_counterexample :
    firstSeenModeSpec ["b", "b", "a", "a"] = some "b" ∧
    simple_clean_dataframe dfC4 =
      ⟨5, [⟨"x", ColKind.numeric,
            [Cell.num 1, Cell.num 2, Cell.num 3, Cell.num 4, Cell.num 5]⟩,
           ⟨"c", ColKind.object,
            [Cell.str "b", Cell.str "b", Cell.str "a", Cell.str "a", Cell.str "a"]⟩]⟩ ∧
    Cell.str "a" ≠ Cell.str "b" := by
  refine ⟨by decide, by with_unfolding_all decide, by decide⟩

/-- Claim C4 (amended): for every object column with at least one missing
and at least one non-missing value, the imputation step fills the missing
entries with a single value `v` that is a most frequent non-missing value;
among equally frequent candidates, `v` is the smallest in lexicographic
order (the first of the sorted mode list), not the one appearing first in
row order. -/
theorem fill_object_min_mode (c : Col) (hk : c.kind = ColKind.object)
    (hna : 0 < missingCount c) (hs : strsOf c ≠ []) :
    ∃ v, fillColObject c =
        { c with cells := c.cells.map (fun x => if x.isNA then Cell.str v else x) } ∧
      v ∈ strsOf c ∧
      (∀ w ∈ strsOf c, (strsOf c).count w ≤ (strsOf c).count v) ∧
      (∀ w ∈ strsOf c, (strsOf c).count w = (strsOf c).count v → v ≤ w) := by
  obtain ⟨v, hv, hmem, hmax, hmin⟩ := modeList_head_min (strsOf c) hs
  refine ⟨v, ?_, hmem, hmax, hmin⟩
  unfold fillColObject
  rw [if_pos ⟨hk, hna⟩, hv]

/-- Witness for `fill_object_min_mode` at the concrete column `colC4`. -/
theorem fill_object_min_mode_witness :
    (colC4.kind = ColKind.object ∧ 0 < missingCount colC4 ∧ strsOf colC4 ≠ []) ∧
    (∃ v, fillColObject colC4 =
        { colC4 with cells := colC4.cells.map (fun x => if x.isNA then Cell.str v else x) } ∧
      v ∈ strsOf colC4 ∧
      (∀ w ∈ strsOf colC4, (strsOf colC4).count w ≤ (strsOf colC4).count v) ∧
      (∀ w ∈ strsOf colC4, (strsOf colC4).count w = (strsOf colC4).count v → v ≤ w)) :=
  ⟨⟨by decide, by decide, by decide⟩,
   fill_object_min_mode colC4 (by decide) (by decide) (by decide)⟩

/-! ### Claim C2: field names and ranges of the summary records -/

/-- Claim C2 counterexample: the shape record of the summary uses the
keys "rows" and "columns", not "row_count" and "column_count", and the
per-column missing-value records use the keys "count" and "pct", not
"count" and "percentage". -/
theorem summary_field_names_counterexample :
    (eda_shape dfW).map Prod.fst = ["rows", "columns"] ∧
    "row_count" ∉ (eda_shape dfW).map Prod.fst ∧
    (eda_missing_values dfW).map (fun p => p.2.map Prod.fst) = [["count", "pct"]] ∧
    "percentage" ∉ (["count", "pct"] : List String) := by
  refine ⟨rfl, by decide, by with_unfolding_all decide, by decide⟩

/-- Claim C2 (amended): the shape record carries the two keys "rows" and
"columns" holding the (non-negative) row and column counts, and every
missing-value record carries exactly the keys "count" (a positive
integer count) and "pct" (a rational percentage within [0, 100]). -/
theorem summary_field_ranges (df : DF) (hwf : df.WF) :
    (eda_shape df).map Prod.fst = ["rows", "columns"] ∧
    eda_shape df = [("rows", df.nrows), ("columns", df.cols.length)] ∧
    ∀ p ∈ eda_missing_values df, ∃ (k : ℕ) (pct : ℚ),
      p.2 = [("count", (k : ℚ)), ("pct", pct)] ∧ 0 < k ∧ 0 ≤ pct ∧ pct ≤ 100 := by
  refine ⟨rfl, rfl, ?_⟩
  intro p hp
  rcases List.mem_filterMap.mp hp with ⟨c, hc, hfc⟩
  by_cases h0 : 0 < missingCount c
  · rw [if_pos h0] at hfc
    injection hfc with h
    rw [← h]
    refine ⟨missingCount c, (missingCount c : ℚ) / (df.nrows : ℚ) * 100, rfl, h0, ?_, ?_⟩
    · positivity
    · have hlen : c.cells.length = df.nrows := (hwf.2 c hc).1
      have hmcle : missingCount c ≤ df.nrows := hlen ▸ List.countP_le_length _
      have hnr : 0 < df.nrows := lt_of_lt_of_le h0 hmcle
      have hnrq : (0 : ℚ) < (df.nrows : ℚ) := by exact_mod_cast hnr
      have h1 : (missingCount c : ℚ) / (df.nrows : ℚ) ≤ 1 := by
        rw [div_le_one hnrq]
        exact_mod_cast hmcle
      linarith
  · rw [if_neg h0] at hfc
    cases hfc

/-- Witness for `summary_field_ranges` at the concrete frame `dfW`. -/
theorem summary_field_ranges_witness :
    dfW.WF ∧
    ((eda_shape dfW).map Prod.fst = ["rows", "columns"] ∧
     eda_shape dfW = [("rows", dfW.nrows), ("columns", dfW.cols.length)] ∧
     ∀ p ∈ eda_missing_values dfW, ∃ (k : ℕ) (pct : ℚ),
       p.2 = [("count", (k : ℚ)), ("pct", pct)] ∧ 0 < k ∧ 0 ≤ pct ∧ pct ≤ 100) :=
  ⟨by decide, summary_field_ranges dfW (by decide)⟩

/-! ### Claim C6: sparsity of the missing_values mapping -/

/-- Claim C6: a column's name is a key of the missing_values mapping iff
the column has at least one missing value; columns with zero missing
values never appear. -/
theorem missing_values_key_iff (df : DF) (hwf : df.WF) (c : Col) (hc : c ∈ df.cols) :
    c.name ∈ (eda_missing_values df).map Prod.fst ↔ 0 < missingCount c := by
  constructor
  · intro hmem
    rcases List.mem_map.mp hmem with ⟨p, hp, hname⟩
    rcases List.mem_filterMap.mp hp with ⟨c', hc', hfc⟩
    by_cases h0 : 0 < missingCount c'
    · rw [if_pos h0] at hfc
      injection hfc with h
      have hnames : c'.name = c.name := by rw [← hname, ← h]
      have hcc : c' = c := List.inj_on_of_nodup_map hwf.1 hc' hc hnames
      exact hcc ▸ h0
    · rw [if_neg h0] at hfc
      cases hfc
  · intro h0
    exact List.mem_map.mpr
      ⟨(c.name, [("count", (missingCount c : ℚ)),
                 ("pct", (missingCount c : ℚ) / (df.nrows : ℚ) * 100)]),
       List.mem_filterMap.mpr ⟨c, hc, by rw [if_pos h0]⟩, rfl⟩

/-- Witness for `missing_values_key_iff` at the concrete frame `dfW` and
its numeric column. -/
theorem missing_values_key_iff_witness :
    (dfW.WF ∧ ⟨"x", ColKind.numeric, [Cell.num 1, Cell.num 2, Cell.na]⟩ ∈ dfW.cols) ∧
    (Col.name ⟨"x", ColKind.numeric, [Cell.num 1, Cell.num 2, Cell.na]⟩ ∈
        (eda_missing_values dfW).map Prod.fst ↔
      0 < missingCount ⟨"x", ColKind.numeric, [Cell.num 1, Cell.num 2, Cell.na]⟩) :=
  ⟨⟨by decide, by decide⟩,
   missing_values_key_iff dfW (by decide) _ (by decide)⟩

/-! ### Claim C9: failure behaviour of the report generation -/

/-- Claim C9 counterexample: with the GOOGLE_API_KEY variable unset, the
report generation raises (the API-key check sits before the try block in
`_call_gemini_http`), even when the HTTP call itself would have
succeeded — it does not return a descriptive failure string. -/
theorem report_raises_without_key :
    (generate_eda_report_markdown "" ⟨none⟩
        (HttpOutcome.okData ⟨[⟨["report text"]⟩]⟩)).isOk = false ∧
    generate_eda_report_markdown "" ⟨none⟩ (HttpOutcome.okData ⟨[⟨["report text"]⟩]⟩) =
      Except.error
        "GOOGLE_API_KEY environment variable is not set. Set it before running the pipeline." :=
  ⟨rfl, rfl⟩

/-- Claim C9 (amended): when the GOOGLE_API_KEY variable is set and
non-empty, `generate_eda_report_markdown` never raises: for every HTTP
outcome it returns a string, which is a descriptive failure string
(starting with the failure marker) whenever the call did not produce a
non-empty first text, and the text itself otherwise.  With the variable
unset or empty it raises RuntimeError instead. -/
theorem report_degrades_with_key (s0 : String) (env : Env) (out : HttpOutcome) (k : String)
    (hk : env.googleApiKey = some k) (hne : k ≠ "") :
    ∃ s, generate_eda_report_markdown s0 env out = Except.ok s ∧
      (successText out = none → ∃ tail, s = "LLM EDA report generation failed" ++ tail) ∧
      (∀ t, successText out = some t → s = t) := by
  have hkey : ensure_api_key env = Except.ok k := by
    simp [ensure_api_key, hk, hne]
  unfold generate_eda_report_markdown call_gemini_http
  rw [hkey]
  cases out with
  | httpError m b =>
      refine ⟨"LLM EDA report generation failed (HTTP error): " ++ m ++ ", body=" ++ b,
        rfl, ?_, ?_⟩
      · intro _
        refine ⟨" (HTTP error): " ++ m ++ ", body=" ++ b, ?_⟩
        conv_rhs => rw [← String.append_assoc, ← String.append_assoc, ← String.append_assoc]
        rfl
      · intro t ht
        exact absurd ht (by simp [successText])
  | exnRaised m =>
      refine ⟨"LLM EDA report generation failed (unexpected error): " ++ m, rfl, ?_, ?_⟩
      · intro _
        refine ⟨" (unexpected error): " ++ m, ?_⟩
        conv_rhs => rw [← String.append_assoc]
        rfl
      · intro t ht
        exact absurd ht (by simp [successText])
  | okData data =>
      rcases data with ⟨cands⟩
      cases cands with
      | nil =>
          refine ⟨"LLM EDA report generation failed: no candidates in response: " ++
              renderData ⟨[]⟩, rfl, ?_, ?_⟩
          · intro _
            refine ⟨": no candidates in response: " ++ renderData ⟨[]⟩, ?_⟩
            conv_rhs => rw [← String.append_assoc]
            rfl
          · intro t ht
            exact absurd ht (by simp [successText])
      | cons c cs =>
          rcases c with ⟨parts⟩
          cases parts with
          | nil =>
              refine ⟨"LLM EDA report generation failed: no parts in response: " ++
                  renderData ⟨⟨[]⟩ :: cs⟩, rfl, ?_, ?_⟩
              · intro _
                refine ⟨": no parts in response: " ++ renderData ⟨⟨[]⟩ :: cs⟩, ?_⟩
                conv_rhs => rw [← String.append_assoc]
                rfl
              · intro t ht
                exact absurd ht (by simp [successText])
          | cons t ts =>
              by_cases ht0 : t = ""
              · subst ht0
                refine ⟨"LLM EDA report generation failed: empty text in response: " ++
                    renderData ⟨⟨"" :: ts⟩ :: cs⟩, rfl, ?_, ?_⟩
                · intro _
                  refine ⟨": empty text in response: " ++ renderData ⟨⟨"" :: ts⟩ :: cs⟩, ?_⟩
                  conv_rhs => rw [← String.append_assoc]
                  rfl
                · intro t' ht'
                  exact absurd ht' (by simp [successText])
              · refine ⟨t, ?_, ?_, ?_⟩
                · show Except.ok (if t = "" then
                      "LLM EDA report generation failed: empty text in response: " ++
                        renderData ⟨⟨t :: ts⟩ :: cs⟩ else t) = Except.ok t
                  rw [if_neg ht0]
                · intro hnone
                  exact absurd hnone (by simp [successText, if_neg ht0])
                · intro t' ht'
                  simp only [successText, if_neg ht0, Option.some.injEq] at ht'
                  exact ht'

/-- Witness for `report_degrades_with_key` at a concrete environment and
a concrete malformed response. -/
theorem report_degrades_with_key_witness :
    ((⟨some "key"⟩ : Env).googleApiKey = some "key" ∧ "key" ≠ "") ∧
    (∃ s, generate_eda_report_markdown "summary" ⟨some "key"⟩ (HttpOutcome.okData ⟨[]⟩) =
        Except.ok s ∧
      (successText (HttpOutcome.okData ⟨[]⟩) = none →
        ∃ tail, s = "LLM EDA report generation failed" ++ tail) ∧
      (∀ t, successText (HttpOutcome.okData ⟨[]⟩) = some t → s = t)) :=
  ⟨⟨rfl, by decide⟩,
   report_degrades_with_key "summary" ⟨some "key"⟩ (HttpOutcome.okData ⟨[]⟩) "key"
     rfl (by decide)⟩

/-! ### Claim C10: the "Unknown" fallback is unreachable -/

/-- `fillColNumeric` preserves the column kind. -/
lemma fillColNumeric_kind (c : Col) : (fillColNumeric c).kind = c.kind := by
  unfold fillColNumeric
  split
  · cases median (numsOf c) <;> rfl
  · rfl

/-- `fillColNumeric` leaves non-numeric columns untouched. -/
lemma fillColNumeric_of_not_numeric (c : Col) (h : ¬ c.kind = ColKind.numeric) :
    fillColNumeric c = c := by
  unfold fillColNumeric
  rw [if_neg h]

/-- A string cell contributes its value to `strsOf`. -/
lemma mem_strsOf (c : Col) (s : String) (h : Cell.str s ∈ c.cells) :
    s ∈ strsOf c :=
  List.mem_filterMap.mpr ⟨Cell.str s, h, rfl⟩

/-- Claim C10: the "Unknown" fallback branch of the categorical
imputation is unreachable on well-formed frames — any object column that
reaches the imputation step with a missing entry also has a non-missing
value, because an all-missing column is dropped by pruning whenever the
frame has a row, and with zero rows no column has missing entries. -/
theorem unknown_fallback_unreachable (df : DF) (hwf : df.WF) :
    ¬ unknownFallbackUsed df := by
  rintro ⟨c, hc, hobj, hna, hmode⟩
  rcases List.mem_map.mp hc with ⟨c0, hc0, hfc0⟩
  have hknum : ¬ c0.kind = ColKind.numeric := by
    intro hn
    have := fillColNumeric_kind c0
    rw [hfc0, hobj, hn] at this
    cases this
  have hcc0 : c = c0 := by rw [← hfc0, fillColNumeric_of_not_numeric c0 hknum]
  subst hcc0
  have hstrs : strsOf c = [] := by
    by_contra h
    exact modeList_ne_nil _ h hmode
  have hcmem : c ∈ df.cols := (List.mem_filter.mp hc0).1
  have hok := hwf.2 c hcmem
  have hallna : ∀ x ∈ c.cells, Cell.isNA x = true := by
    intro x hx
    have hkx := hok.2 x hx
    rw [hobj] at hkx
    cases x with
    | str s =>
        exact absurd (mem_strsOf c s hx) (by rw [hstrs]; exact List.not_mem_nil s)
    | na => rfl
    | num q => cases hkx
    | other n => cases hkx
  have hmc : missingCount c = df.nrows := by
    rw [missingCount, List.countP_eq_length.mpr hallna, hok.1]
  have hkeep := (prune_keeps_iff df c).mp hc0
  rcases hkeep.2 with h0 | h0
  · rw [hmc, h0] at hna
    exact absurd hna (lt_irrefl 0)
  · rw [hmc] at hna h0
    omega

/-- Witness for `unknown_fallback_unreachable` at the concrete frame
`dfW`. -/
theorem unknown_fallback_unreachable_witness :
    dfW.WF ∧ ¬ unknownFallbackUsed dfW :=
  ⟨by decide, unknown_fallback_unreachable dfW (by decide)⟩

/-! ### Rows, rebuild and duplicate-removal machinery -/

/-- `getD` through a `map`, in range. -/
lemma getD_map_lt {α β : Type} (g : α → β) (l : List α) (j : ℕ) (d : β)
    (h : j < l.length) : (l.map g).getD j d = g l[j] := by
  rw [List.getD_eq_getElem?_getD, List.getElem?_map, List.getElem?_eq_getElem h]
  rfl

/-- `getD` in range is `getElem`. -/
lemma getD_lt {α : Type} (l : List α) (j : ℕ) (d : α) (h : j < l.length) :
    l.getD j d = l[j] := by
  rw [List.getD_eq_getElem?_getD, List.getElem?_eq_getElem h]
  rfl

/-- Reading every position of a list back in order gives the list. -/
lemma range_map_getD {α : Type} (l : List α) (d : α) (n : ℕ) (h : l.length = n) :
    (List.range n).map (fun j => l.getD j d) = l := by
  apply List.ext_getElem
  · simp [h]
  · intro i h1 h2
    simp only [List.getElem_map, List.getElem_range]
    exact getD_lt l i d h2

/-- A map over `enum` that only uses the indices is a map over the
range. -/
lemma enum_map_fst_comp {α β : Type} (l : List α) (g : ℕ → β) :
    l.enum.map (fun ic => g ic.1) = (List.range l.length).map g := by
  rw [← List.enum_map_fst l, List.map_map]
  rfl

/-- A row of a frame has one entry per column. -/
lemma row_length (df : DF) (j : ℕ) : (df.row j).length = df.cols.length := by
  simp [DF.row]

/-- Every row produced by `rowsOf` has one entry per column. -/
lemma length_of_mem_rowsOf (df : DF) (r : List Cell) (h : r ∈ df.rowsOf) :
    r.length = df.cols.length := by
  rcases List.mem_map.mp h with ⟨j, _, hj⟩
  rw [← hj]
  exact row_length df j

/-- Reading the rows of a rebuilt frame gives back the rows it was built
from. -/
lemma rowsOf_rebuild (df : DF) (rs : List (List Cell))
    (h : ∀ r ∈ rs, r.length = df.cols.length) : (rebuild df rs).rowsOf = rs := by
  unfold DF.rowsOf
  apply List.ext_getElem
  · simp [rebuild]
  · intro j hj1 hj2
    simp only [List.getElem_map, List.getElem_range]
    have hjlt : j < rs.length := by simpa [rebuild] using hj2
    show (rebuild df rs).row j = rs[j]
    unfold DF.row rebuild
    simp only [List.map_map]
    have h1 : df.cols.enum.map
          ((fun (c : Col) => c.cells.getD j Cell.na) ∘
            fun (ic : ℕ × Col) =>
              { ic.2 with cells := rs.map (fun (r : List Cell) => r.getD ic.1 Cell.na) }) =
        df.cols.enum.map (fun ic => rs[j].getD ic.1 Cell.na) := by
      apply List.map_congr_left
      intro ic _
      exact getD_map_lt _ _ _ _ hjlt
    rw [h1, enum_map_fst_comp df.cols (fun i => rs[j].getD i Cell.na),
      range_map_getD rs[j] Cell.na df.cols.length (h rs[j] (List.getElem_mem hjlt))]

/-- Rebuilding a well-formed frame from its own rows gives the frame
back. -/
lemma rebuild_rowsOf (df : DF) (hlen : ∀ c ∈ df.cols, c.cells.length = df.nrows) :
    rebuild df df.rowsOf = df := by
  have hn : df.rowsOf.length = df.nrows := by simp [DF.rowsOf]
  rcases df with ⟨n, cols⟩
  unfold rebuild
  simp only [DF.mk.injEq]
  refine ⟨hn, ?_⟩
  apply List.ext_getElem
  · simp
  · intro i hi1 hi2
    simp only [List.getElem_map, List.getElem_enum]
    have hcells : (DF.mk n cols).rowsOf.map (fun r => r.getD i Cell.na) = cols[i].cells := by
      unfold DF.rowsOf
      simp only [List.map_map]
      have h1 : (List.range n).map ((fun r => r.getD i Cell.na) ∘ (DF.mk n cols).row) =
          (List.range n).map (fun j => cols[i].cells.getD j Cell.na) := by
        apply List.map_congr_left
        intro j hj
        show ((DF.mk n cols).row j).getD i Cell.na = cols[i].cells.getD j Cell.na
        unfold DF.row
        exact getD_map_lt (fun c => c.cells.getD j Cell.na) cols i Cell.na hi2
      rw [h1]
      exact range_map_getD cols[i].cells Cell.na n (hlen cols[i] (List.getElem_mem hi2))
    rw [hcells]

/-! ### Missing-value elimination machinery -/

/-- `fillColObject` preserves the column kind. -/
lemma fillColObject_kind (c : Col) : (fillColObject c).kind = c.kind := by
  unfold fillColObject
  split <;> rfl

/-- `fillColObject` leaves non-object columns untouched. -/
lemma fillColObject_of_not_object (c : Col) (h : ¬ c.kind = ColKind.object) :
    fillColObject c = c := by
  unfold fillColObject
  rw [if_neg (fun hand => h hand.1)]

/-- `fillColNumeric` preserves the number of cells. -/
lemma fillColNumeric_length (c : Col) :
    (fillColNumeric c).cells.length = c.cells.length := by
  unfold fillColNumeric
  split
  · cases median (numsOf c) <;> simp
  · rfl

/-- `fillColObject` preserves the number of cells. -/
lemma fillColObject_length (c : Col) :
    (fillColObject c).cells.length = c.cells.length := by
  unfold fillColObject
  split <;> simp

/-- The median of a nonempty list is defined. -/
lemma median_ne_none (xs : List ℚ) (h : xs ≠ []) : median xs ≠ none := by
  unfold median
  have hlen : (sortB (fun a b => decide (a ≤ b)) xs).length = xs.length :=
    length_sortB _ xs
  have hpos : 0 < (sortB (fun a b => decide (a ≤ b)) xs).length := by
    rw [hlen]
    exact List.length_pos.mpr h
  simp only
  rw [if_neg (by omega)]
  by_cases hodd : (sortB (fun a b => decide (a ≤ b)) xs).length % 2 = 1
  · rw [if_pos hodd]
    rw [List.getElem?_eq_getElem (by omega)]
    exact Option.some_ne_none _
  · rw [if_neg hodd]
    rw [List.getElem?_eq_getElem (by omega), List.getElem?_eq_getElem (by omega)]
    exact Option.some_ne_none _

/-- Filling the missing cells with any non-missing cell leaves no missing
cell. -/
lemma countP_fill_eq_zero (cells : List Cell) (g : Cell) (hg : g.isNA = false) :
    (cells.map (fun x => if x.isNA then g else x)).countP (·.isNA) = 0 := by
  rw [List.countP_eq_zero]
  intro y hy
  rcases List.mem_map.mp hy with ⟨x, _, hx⟩
  by_cases hna : x.isNA
  · rw [← hx, if_pos hna]
    simp [hg]
  · rw [← hx, if_neg hna]
    simpa using hna

/-- A column whose missing count is below its length has a non-missing
cell. -/
lemma exists_non_missing (c : Col) (h : missingCount c < c.cells.length) :
    ∃ x ∈ c.cells, Cell.isNA x = false := by
  by_contra hcon
  push_neg at hcon
  have : missingCount c = c.cells.length :=
    List.countP_eq_length.mpr (fun x hx => by
      have := hcon x hx
      simpa using this)
  omega

/-- After the two imputation passes, a pruned-surviving numeric or object
column of a well-formed frame has no missing value. -/
lemma fill_missing_zero (df : DF) (c0 : Col) (hok : c0.ok df.nrows)
    (hkeep : df.nrows = 0 ∨ 5 * missingCount c0 ≤ 4 * df.nrows)
    (hk : c0.kind = ColKind.numeric ∨ c0.kind = ColKind.object) :
    missingCount (fillColObject (fillColNumeric c0)) = 0 := by
  by_cases h0 : missingCount c0 = 0
  · -- no missing cell to start with: both passes preserve the count 0
    have hnone : ∀ x ∈ c0.cells, Cell.isNA x = false := by
      intro x hx
      by_contra hcon
      have : 0 < missingCount c0 :=
        List.countP_pos.mpr ⟨x, hx, by simpa using hcon⟩
      omega
    rcases hk with hk | hk
    · -- numeric column, no missing: the object pass is skipped
      rw [fillColObject_of_not_object _ (by rw [fillColNumeric_kind, hk]; intro h; cases h)]
      unfold fillColNumeric
      rw [if_pos hk]
      cases hmed : median (numsOf c0) with
      | none => exact h0
      | some m =>
          exact countP_fill_eq_zero c0.cells (Cell.num m) rfl
    · -- object column, no missing: both passes are the identity
      rw [fillColNumeric_of_not_numeric _ (by rw [hk]; intro h; cases h)]
      unfold fillColObject
      rw [if_neg (fun hand => absurd hand.2 (by omega))]
      exact h0
  · -- at least one missing cell: pruning survival forces a non-missing one
    have hlt : missingCount c0 < c0.cells.length := by
      rcases hkeep with hz | hb
      · exfalso
        have hle : missingCount c0 ≤ c0.cells.length := List.countP_le_length _
        rw [hok.1, hz] at hle
        exact h0 (by omega)
      · rw [hok.1]
        omega
    obtain ⟨x, hx, hxna⟩ := exists_non_missing c0 hlt
    rcases hk with hk | hk
    · -- numeric: the non-missing cell is a number, so the median exists
      have hq : ∃ q : ℚ, x = Cell.num q := by
        have := hok.2 x hx
        rw [hk] at this
        cases x with
        | num q => exact ⟨q, rfl⟩
        | str s => cases this
        | other n => cases this
        | na => cases hxna
      obtain ⟨q, hq⟩ := hq
      have hnums : numsOf c0 ≠ [] := by
        intro hcon
        have : q ∈ numsOf c0 := List.mem_filterMap.mpr ⟨Cell.num q, hq ▸ hx, rfl⟩
        rw [hcon] at this
        exact List.not_mem_nil q this
      rw [fillColObject_of_not_object _ (by rw [fillColNumeric_kind, hk]; intro h; cases h)]
      unfold fillColNumeric
      rw [if_pos hk]
      cases hmed : median (numsOf c0) with
      | none => exact absurd hmed (median_ne_none _ hnums)
      | some m => exact countP_fill_eq_zero c0.cells (Cell.num m) rfl
    · -- object: the fill always replaces every missing cell by a string
      rw [fillColNumeric_of_not_numeric _ (by rw [hk]; intro h; cases h)]
      unfold fillColObject
      rw [if_pos ⟨hk, by omega⟩]
      exact countP_fill_eq_zero c0.cells _ rfl

/-- Each column of the deduplicated frame is an original column with its
cells read off the kept rows. -/
lemma cols_dropDuplicates (p : DF) (c' : Col) (h : c' ∈ (dropDuplicates p).cols) :
    ∃ i, ∃ hi : i < p.cols.length,
      c' = { p.cols[i] with
             cells := (dedupFirst p.rowsOf).map (fun r => r.getD i Cell.na) } := by
  unfold dropDuplicates rebuild at h
  simp only at h
  rcases List.mem_map.mp h with ⟨ic, hic, hfc⟩
  rcases List.mem_iff_getElem.mp hic with ⟨i, hi, hgi⟩
  rw [List.getElem_enum] at hgi
  have hilt : i < p.cols.length := by simpa using hi
  refine ⟨i, hilt, ?_⟩
  rw [← hfc, ← hgi]

/-- A cell of the deduplicated frame is a cell of the corresponding
original column. -/
lemma dropDup_cells_subset (p : DF) (hlen : ∀ c ∈ p.cols, c.cells.length = p.nrows)
    (i : ℕ) (hi : i < p.cols.length) (y : Cell)
    (hy : y ∈ (dedupFirst p.rowsOf).map (fun r => r.getD i Cell.na)) :
    y ∈ p.cols[i].cells := by
  rcases List.mem_map.mp hy with ⟨r, hr, hry⟩
  have hrmem : r ∈ p.rowsOf := mem_of_mem_dedupAux hr
  rcases List.mem_map.mp hrmem with ⟨j, hj, hjr⟩
  have hjlt : j < p.nrows := List.mem_range.mp hj
  rw [← hjr] at hry
  unfold DF.row at hry
  rw [getD_map_lt _ _ _ _ hi] at hry
  rw [getD_lt _ _ _ (by rw [hlen p.cols[i] (List.getElem_mem hi)]; exact hjlt)] at hry
  rw [← hry]
  exact List.getElem_mem _

/-- `simple_clean_dataframe` written with the two imputation passes fused
into one map over the pruned columns. -/
lemma simple_clean_eq (df : DF) :
    simple_clean_dataframe df =
      dropDuplicates
        ⟨df.nrows, (pruneCols df).cols.map (fun c => fillColObject (fillColNumeric c))⟩ := by
  unfold simple_clean_dataframe
  simp only [List.map_map]
  rfl

/-- Structure of a cleaned column: it descends from an input column with
the same kind, and when that kind is numeric or object it holds no
missing value. -/
lemma clean_col_spec (df : DF) (hwf : df.WF) (c' : Col)
    (hc' : c' ∈ (simple_clean_dataframe df).cols) :
    ∃ c0 ∈ df.cols, c'.kind = c0.kind ∧
      ((c0.kind = ColKind.numeric ∨ c0.kind = ColKind.object) → missingCount c' = 0) := by
  rw [simple_clean_eq] at hc'
  obtain ⟨i, hi, hcc⟩ := cols_dropDuplicates _ c' hc'
  have hilt : i < (pruneCols df).cols.length := by simpa using hi
  have hPi : (⟨df.nrows,
      (pruneCols df).cols.map (fun c => fillColObject (fillColNumeric c))⟩ : DF).cols[i] =
      fillColObject (fillColNumeric (pruneCols df).cols[i]) := by
    simp
  have hc0mem : (pruneCols df).cols[i] ∈ (pruneCols df).cols := List.getElem_mem hilt
  have hmemdf : (pruneCols df).cols[i] ∈ df.cols := (List.mem_filter.mp hc0mem).1
  have hok : ((pruneCols df).cols[i]).ok df.nrows := hwf.2 _ hmemdf
  have hkeep := ((prune_keeps_iff df (pruneCols df).cols[i]).mp hc0mem).2
  have hkind : c'.kind = ((pruneCols df).cols[i]).kind := by
    rw [hcc]
    show ((⟨df.nrows,
        (pruneCols df).cols.map (fun c => fillColObject (fillColNumeric c))⟩ : DF).cols[i]).kind =
      ((pruneCols df).cols[i]).kind
    rw [hPi, fillColObject_kind, fillColNumeric_kind]
  refine ⟨(pruneCols df).cols[i], hmemdf, hkind, ?_⟩
  intro hk
  have hfz : missingCount (fillColObject (fillColNumeric (pruneCols df).cols[i])) = 0 :=
    fill_missing_zero df _ hok hkeep hk
  have hlen : ∀ c ∈ (⟨df.nrows,
      (pruneCols df).cols.map (fun c => fillColObject (fillColNumeric c))⟩ : DF).cols,
      c.cells.length = df.nrows := by
    intro c hc
    rcases List.mem_map.mp hc with ⟨c0, hc0, hfc0⟩
    rw [← hfc0, fillColObject_length, fillColNumeric_length]
    exact (hwf.2 c0 (List.mem_filter.mp hc0).1).1
  rw [missingCount, List.countP_eq_zero]
  intro y hy
  have hymem : y ∈ (fillColObject (fillColNumeric (pruneCols df).cols[i])).cells := by
    rw [← hPi]
    apply dropDup_cells_subset _ hlen i hi y
    rw [hcc] at hy
    exact hy
  rw [missingCount, List.countP_eq_zero] at hfz
  exact hfz y hymem

/-! ### Claim C5: missing-value elimination -/

/-- Claim C5: after `simple_clean_dataframe`, every retained numeric and
object column of a well-formed frame contains zero missing values.  This
is the claim's main assertion with its exception clause vacuous: a column
whose source had zero non-missing values is dropped by pruning whenever
the frame has a row (its missing fraction is 1), and with zero rows every
column is empty, hence trivially free of missing values — no retained
column is ever "left fully missing". -/
theorem clean_no_missing (df : DF) (hwf : df.WF) (c' : Col)
    (hc' : c' ∈ (simple_clean_dataframe df).cols)
    (hk : c'.kind = ColKind.numeric ∨ c'.kind = ColKind.object) :
    missingCount c' = 0 := by
  obtain ⟨c0, _, hkind, hz⟩ := clean_col_spec df hwf c' hc'
  exact hz (by rw [← hkind]; exact hk)

/-- Witness for `clean_no_missing` at `dfW` and its cleaned numeric
column. -/
theorem clean_no_missing_witness :
    (dfW.WF ∧
     ⟨"x", ColKind.numeric, [Cell.num 1, Cell.num 2, Cell.num (3 / 2)]⟩ ∈
        (simple_clean_dataframe dfW).cols ∧
     (ColKind.numeric = ColKind.numeric ∨ ColKind.numeric = ColKind.object)) ∧
    missingCount ⟨"x", ColKind.numeric, [Cell.num 1, Cell.num 2, Cell.num (3 / 2)]⟩ = 0 :=
  ⟨⟨by decide, by with_unfolding_all decide, Or.inl rfl⟩,
   clean_no_missing dfW (by decide) _ (by with_unfolding_all decide) (Or.inl rfl)⟩

/-! ### Claim C8: categorical top values -/

/-- Any list is pairwise related by "the pair is a sublist of the list":
earlier elements appear before later ones. -/
lemma pairwise_pair_sublist {α : Type} (l : List α) :
    l.Pairwise (fun a b => [a, b].Sublist l) := by
  induction l with
  | nil => exact List.Pairwise.nil
  | cons x t ih =>
      refine List.pairwise_cons.mpr ⟨?_, ?_⟩
      · intro b hb
        exact List.Sublist.cons₂ x (List.singleton_sublist.mpr hb)
      · exact ih.imp (fun h => List.Sublist.cons x h)

/-- The descending-count boolean order on counted values is
transitive. -/
lemma cntLE_trans (a b c : String × ℕ)
    (hab : decide (b.2 ≤ a.2) = true) (hbc : decide (c.2 ≤ b.2) = true) :
    decide (c.2 ≤ a.2) = true := by
  simp only [decide_eq_true_eq] at *
  omega

/-- The descending-count boolean order on counted values is total. -/
lemma cntLE_tot (a b : String × ℕ) :
    decide (b.2 ≤ a.2) = true ∨ decide (a.2 ≤ b.2) = true := by
  simp only [decide_eq_true_eq]
  omega

/-- The head-`k` truncation of `value_counts`: bounded length, distinct
keys, correct counts over the data, counts in descending order, and ties
ordered by first occurrence (their order in `dedupFirst`). -/
lemma value_counts_take_spec (xs : List String) (k : ℕ) :
    ((value_counts xs).take k).length ≤ k ∧
    (((value_counts xs).take k).map Prod.fst).Nodup ∧
    (∀ q ∈ (value_counts xs).take k, q.1 ∈ xs ∧ q.2 = xs.count q.1) ∧
    ((value_counts xs).take k).Pairwise (fun q r => r.2 ≤ q.2 ∧
      (q.2 = r.2 → [q.1, r.1].Sublist (dedupFirst xs))) := by
  have hperm := sortB_perm (fun p q => decide (q.2 ≤ p.2))
    ((dedupFirst xs).map (fun v => (v, xs.count v)))
  have htake : ((value_counts xs).take k).Sublist (value_counts xs) :=
    List.take_sublist k _
  refine ⟨?_, ?_, ?_, ?_⟩
  · rw [List.length_take]
    exact min_le_left _ _
  · have hd : ((value_counts xs).map Prod.fst).Nodup := by
      have hpermf := hperm.map Prod.fst
      rw [List.map_map] at hpermf
      have : ((dedupFirst xs).map ((fun p : String × ℕ => p.1) ∘ fun v => (v, xs.count v))) =
          dedupFirst xs := by
        rw [show ((fun p : String × ℕ => p.1) ∘ fun v => (v, xs.count v)) = id from rfl]
        exact List.map_id _
      rw [this] at hpermf
      exact hpermf.nodup_iff.mpr (nodup_dedupAux [] xs)
    exact hd.sublist (htake.map Prod.fst)
  · intro q hq
    have hq1 : q ∈ value_counts xs := htake.mem hq
    have hq2 : q ∈ (dedupFirst xs).map (fun v => (v, xs.count v)) := hperm.mem_iff.mp hq1
    rcases List.mem_map.mp hq2 with ⟨v, hv, hfv⟩
    rw [← hfv]
    exact ⟨mem_of_mem_dedupAux hv, rfl⟩
  · refine List.Pairwise.sublist htake ?_
    unfold value_counts
    apply pairwise_lex_sortB (fun (p q : String × ℕ) => decide (q.2 ≤ p.2))
      (fun (q r : String × ℕ) => r.2 ≤ q.2 ∧ (q.2 = r.2 → [q.1, r.1].Sublist (dedupFirst xs)))
      (fun (q r : String × ℕ) => [q.1, r.1].Sublist (dedupFirst xs))
      cntLE_trans cntLE_tot
    · intro a b hle hS
      exact ⟨of_decide_eq_true hle, fun _ => hS⟩
    · intro a b hle
      have hlt : a.2 < b.2 := by
        have hnb : ¬ b.2 ≤ a.2 := fun h => hle (decide_eq_true h)
        omega
      exact ⟨le_of_lt hlt, fun heq => absurd heq (by omega)⟩
    · rw [List.pairwise_map]
      exact (pairwise_pair_sublist (dedupFirst xs)).imp (fun h => h)

/-- Claim C8: every entry of `categorical_top_values` belongs to an
object column and maps at most `max_categories` distinct non-missing
values of that column to their occurrence counts, ordered by descending
count; equally frequent values keep their first-seen order (their order
in `dedupFirst` of the column values). -/
theorem top_values_spec (df : DF) (k : ℕ) (p : String × List (String × ℕ))
    (hp : p ∈ eda_categorical_top_values df k) :
    ∃ c, c ∈ df.cols ∧ c.kind = ColKind.object ∧ p.1 = c.name ∧
      p.2 = (value_counts (strsOf c)).take k ∧
      p.2.length ≤ k ∧
      (p.2.map Prod.fst).Nodup ∧
      (∀ q ∈ p.2, q.1 ∈ strsOf c ∧ q.2 = (strsOf c).count q.1) ∧
      p.2.Pairwise (fun q r => r.2 ≤ q.2 ∧
        (q.2 = r.2 → [q.1, r.1].Sublist (dedupFirst (strsOf c)))) := by
  unfold eda_categorical_top_values at hp
  rcases List.mem_map.mp hp with ⟨c, hcf, hfc⟩
  have hcmem := List.mem_filter.mp hcf
  obtain ⟨hlen, hnd, hcnt, hpw⟩ := value_counts_take_spec (strsOf c) k
  cases hfc
  exact ⟨c, hcmem.1, of_decide_eq_true hcmem.2, rfl, rfl, hlen, hnd, hcnt, hpw⟩

/-- Witness for `top_values_spec` at the concrete frame `dfW` and its
object column. -/
theorem top_values_spec_witness :
    (("c", [("a", 2), ("b", 1)]) ∈ eda_categorical_top_values dfW 10) ∧
    (∃ c, c ∈ dfW.cols ∧ c.kind = ColKind.object ∧
      (("c", [("a", 2), ("b", 1)]) : String × List (String × ℕ)).1 = c.name ∧
      (("c", [("a", 2), ("b", 1)]) : String × List (String × ℕ)).2 =
        (value_counts (strsOf c)).take 10 ∧
      (("c", [("a", 2), ("b", 1)]) : String × List (String × ℕ)).2.length ≤ 10 ∧
      ((("c", [("a", 2), ("b", 1)]) : String × List (String × ℕ)).2.map Prod.fst).Nodup ∧
      (∀ q ∈ (("c", [("a", 2), ("b", 1)]) : String × List (String × ℕ)).2,
        q.1 ∈ strsOf c ∧ q.2 = (strsOf c).count q.1) ∧
      (("c", [("a", 2), ("b", 1)]) : String × List (String × ℕ)).2.Pairwise
        (fun q r => r.2 ≤ q.2 ∧
          (q.2 = r.2 → [q.1, r.1].Sublist (dedupFirst (strsOf c))))) :=
  ⟨by decide, top_values_spec dfW 10 ("c", [("a", 2), ("b", 1)]) (by decide)⟩

/-! ### Claim C7: correlation symmetry and diagonal -/

/-- Pairing the rows of two columns in the other order swaps the
pairs. -/
lemma zip_filterMap_swap (l1 l2 : List Cell) :
    (l2.zip l1).filterMap
      (fun xy => match xy with | (.num x, .num y) => some (x, y) | _ => none) =
    ((l1.zip l2).filterMap
      (fun xy => match xy with | (.num x, .num y) => some (x, y) | _ => none)).map
        Prod.swap := by
  induction l1 generalizing l2 with
  | nil => cases l2 <;> rfl
  | cons x t ih =>
      cases l2 with
      | nil => rfl
      | cons y s =>
          simp only [List.zip_cons_cons, List.filterMap_cons]
          cases x <;> cases y <;> simp [ih s]

/-- `pairedObs` with the columns swapped. -/
lemma pairedObs_swap (a b : Col) :
    pairedObs b a = (pairedObs a b).map Prod.swap :=
  zip_filterMap_swap a.cells b.cells

/-- Pairing a column with itself duplicates its numeric values. -/
lemma zip_filterMap_self (l : List Cell) :
    (l.zip l).filterMap
      (fun xy => match xy with | (.num x, .num y) => some (x, y) | _ => none) =
    (l.filterMap (fun x => match x with | .num q => some q | _ => none)).map
      (fun q => (q, q)) := by
  induction l with
  | nil => rfl
  | cons x t ih =>
      simp only [List.zip_cons_cons, List.filterMap_cons]
      cases x <;> simp [ih]

/-- `pairedObs` of a column with itself. -/
lemma pairedObs_self (a : Col) :
    pairedObs a a = (numsOf a).map (fun q => (q, q)) :=
  zip_filterMap_self a.cells

/-- Sum of the first components after a swap. -/
lemma sum_swap_fst (ps : List (ℚ × ℚ)) :
    ((ps.map Prod.swap).map (fun p => p.1)).sum = (ps.map (fun p => p.2)).sum := by
  rw [List.map_map]
  rfl

/-- Sum of the second components after a swap. -/
lemma sum_swap_snd (ps : List (ℚ × ℚ)) :
    ((ps.map Prod.swap).map (fun p => p.2)).sum = (ps.map (fun p => p.1)).sum := by
  rw [List.map_map]
  rfl

/-- Sum of the products after a swap. -/
lemma sum_swap_mul (ps : List (ℚ × ℚ)) :
    ((ps.map Prod.swap).map (fun p => p.1 * p.2)).sum =
      (ps.map (fun p => p.1 * p.2)).sum := by
  rw [List.map_map]
  rw [show ((fun p : ℚ × ℚ => p.1 * p.2) ∘ Prod.swap) = fun p : ℚ × ℚ => p.2 * p.1 from rfl]
  congr 1
  apply List.map_congr_left
  intro p _
  ring

/-- Sum of the squared first components after a swap. -/
lemma sum_swap_sq1 (ps : List (ℚ × ℚ)) :
    ((ps.map Prod.swap).map (fun p => p.1 * p.1)).sum =
      (ps.map (fun p => p.2 * p.2)).sum := by
  rw [List.map_map]
  rfl

/-- Sum of the squared second components after a swap. -/
lemma sum_swap_sq2 (ps : List (ℚ × ℚ)) :
    ((ps.map Prod.swap).map (fun p => p.2 * p.2)).sum =
      (ps.map (fun p => p.1 * p.1)).sum := by
  rw [List.map_map]
  rfl

/-- The correlation ingredients are symmetric in the two columns. -/
lemma corrStat_symm (a b : Col) : corrStat b a = corrStat a b := by
  simp only [corrStat, pairedObs_swap a b, List.length_map,
    sum_swap_fst, sum_swap_snd, sum_swap_mul, sum_swap_sq1, sum_swap_sq2]
  split
  · rfl
  · rw [mul_comm
        ((((pairedObs a b).length : ℚ) *
            ((pairedObs a b).map (fun p => p.2 * p.2)).sum -
          ((pairedObs a b).map (fun p => p.2)).sum *
            ((pairedObs a b).map (fun p => p.2)).sum))
        ((((pairedObs a b).length : ℚ) *
            ((pairedObs a b).map (fun p => p.1 * p.1)).sum -
          ((pairedObs a b).map (fun p => p.1)).sum *
            ((pairedObs a b).map (fun p => p.1)).sum)),
      mul_comm ((pairedObs a b).map (fun p => p.2)).sum
        ((pairedObs a b).map (fun p => p.1)).sum]

/-- The Pearson correlation is symmetric. -/
lemma corr_symm (a b : Col) : corr a b = corr b a := by
  unfold corr
  rw [corrStat_symm]

/-- Expansion of the sum of squared deviations. -/
lemma sum_sq_dev (l : List ℚ) (x : ℚ) :
    (l.map (fun q => (q - x) * (q - x))).sum =
      (l.map (fun q => q * q)).sum - 2 * x * l.sum + (l.length : ℚ) * (x * x) := by
  induction l with
  | nil => simp
  | cons y t ih =>
      simp only [List.map_cons, List.sum_cons, List.length_cons]
      push_cast
      rw [ih]
      ring

/-- A sum of squares is non-negative. -/
lemma sum_sq_dev_nonneg (l : List ℚ) (x : ℚ) :
    0 ≤ (l.map (fun q => (q - x) * (q - x))).sum := by
  apply List.sum_nonneg
  intro y hy
  rcases List.mem_map.mp hy with ⟨q, _, hq⟩
  rw [← hq]
  exact mul_self_nonneg _

/-- The Cauchy-Schwarz bound for the scaled variance: the square of the
sum is at most the length times the sum of squares. -/
lemma sq_sum_le (l : List ℚ) :
    l.sum * l.sum ≤ (l.length : ℚ) * (l.map (fun q => q * q)).sum := by
  induction l with
  | nil => simp
  | cons x t ih =>
      simp only [List.sum_cons, List.map_cons, List.length_cons]
      push_cast
      have hdev := sum_sq_dev t x
      have hnn := sum_sq_dev_nonneg t x
      rw [hdev] at hnn
      nlinarith [ih, hnn]

/-- The diagonal correlation ingredients: either undefined or of the form
`(v, v * v)` with `v` positive. -/
lemma corrStat_self_shape (a : Col) :
    corrStat a a = none ∨ ∃ v : ℚ, 0 < v ∧ corrStat a a = some (v, v * v) := by
  simp only [corrStat, pairedObs_self a, List.length_map, List.map_map]
  rw [show ((fun p : ℚ × ℚ => p.1) ∘ fun q : ℚ => (q, q)) = (id : ℚ → ℚ) from rfl]
  rw [show ((fun p : ℚ × ℚ => p.2) ∘ fun q : ℚ => (q, q)) = (id : ℚ → ℚ) from rfl]
  rw [show ((fun p : ℚ × ℚ => p.1 * p.2) ∘ fun q : ℚ => (q, q)) = fun q : ℚ => q * q from rfl]
  rw [show ((fun p : ℚ × ℚ => p.1 * p.1) ∘ fun q : ℚ => (q, q)) = fun q : ℚ => q * q from rfl]
  rw [show ((fun p : ℚ × ℚ => p.2 * p.2) ∘ fun q : ℚ => (q, q)) = fun q : ℚ => q * q from rfl]
  rw [List.map_id]
  by_cases hlen : (numsOf a).length = 0
  · rw [if_pos hlen]
    exact Or.inl rfl
  · rw [if_neg hlen]
    set v : ℚ := ((numsOf a).length : ℚ) * ((numsOf a).map (fun q => q * q)).sum -
      (numsOf a).sum * (numsOf a).sum with hv
    by_cases hz : v * v = 0
    · rw [if_pos hz]
      exact Or.inl rfl
    · rw [if_neg hz]
      refine Or.inr ⟨v, ?_, rfl⟩
      have hvne : v ≠ 0 := fun h => hz (by rw [h]; ring)
      have hvnn : 0 ≤ v := by
        rw [hv]
        have := sq_sum_le (numsOf a)
        linarith
      exact lt_of_le_of_ne hvnn (Ne.symm hvne)

/-- The diagonal Pearson correlation is 1 whenever it is defined. -/
lemma corr_self (a : Col) : corr a a = none ∨ corr a a = some 1 := by
  unfold corr
  rcases corrStat_self_shape a with h | ⟨v, hv, h⟩
  · rw [h]
    exact Or.inl rfl
  · rw [h]
    right
    show some ((v : ℝ) / Real.sqrt ((v * v : ℚ) : ℝ)) = some 1
    congr 1
    have hvR : (0 : ℝ) < (v : ℝ) := by exact_mod_cast hv
    rw [Rat.cast_mul, Real.sqrt_mul_self (le_of_lt hvR)]
    exact div_self (ne_of_gt hvR)

/-- `getCorr` in terms of the first columns found with the given
names. -/
lemma getCorr_eq (df : DF) (x y : String) :
    getCorr df x y =
      if 2 ≤ (numericCols df).length then
        ((numericCols df).find? (fun a => a.name == x)).bind
          (fun A => ((numericCols df).find? (fun b => b.name == y)).map (fun B => corr A B))
      else none := by
  simp only [getCorr, eda_correlations]
  by_cases h2 : 2 ≤ (numericCols df).length
  · rw [if_pos h2, if_pos h2, List.find?_map]
    have hcomp : ((fun p : String × List (String × Option ℝ) => p.1 == x) ∘
        (fun a : Col =>
          (a.name, (numericCols df).map (fun b => (b.name, corr a b))))) =
        (fun a : Col => a.name == x) := rfl
    rw [hcomp]
    cases hA : (numericCols df).find? (fun a => a.name == x) with
    | none => rfl
    | some A =>
        show (((numericCols df).map (fun b => (b.name, corr A b))).find?
            (fun q => q.1 == y)).map (fun q => q.2) =
          ((numericCols df).find? (fun b => b.name == y)).map (fun B => corr A B)
        rw [List.find?_map]
        have hcomp2 : ((fun q : String × Option ℝ => q.1 == y) ∘
            (fun b : Col => (b.name, corr A b))) = (fun b : Col => b.name == y) := rfl
        rw [hcomp2]
        cases hB : (numericCols df).find? (fun b => b.name == y) with
        | none => rfl
        | some B => rfl
  · rw [if_neg h2, if_neg h2, List.find?_nil]

/-- Claim C7: the correlations mapping of the summary is symmetric —
`correlations[x][y]` and `correlations[y][x]` agree for all names — and
every diagonal entry is either the NaN sentinel or exactly 1. -/
theorem correlations_symm_diag (df : DF) (x y : String) :
    getCorr df x y = getCorr df y x ∧
    (getCorr df x x = none ∨ getCorr df x x = some none ∨
      getCorr df x x = some (some 1)) := by
  constructor
  · rw [getCorr_eq, getCorr_eq]
    split
    · cases hA : (numericCols df).find? (fun a => a.name == x) with
      | none =>
          cases hB : (numericCols df).find? (fun b => b.name == y) with
          | none => rfl
          | some B => rfl
      | some A =>
          cases hB : (numericCols df).find? (fun b => b.name == y) with
          | none => rfl
          | some B =>
              show some (corr A B) = some (corr B A)
              rw [corr_symm]
    · rfl
  · rw [getCorr_eq]
    split
    · cases hA : (numericCols df).find? (fun a => a.name == x) with
      | none => exact Or.inl rfl
      | some A =>
          rcases corr_self A with h | h
          · right
            left
            show some (corr A A) = some none
            rw [h]
          · right
            right
            show some (corr A A) = some (some 1)
            rw [h]
    · exact Or.inl rfl

/-! ### Claim C1: idempotence of cleaning -/

/-- The numeric fill does nothing on a column without missing values. -/
lemma fillColNumeric_id (c : Col) (h : missingCount c = 0) : fillColNumeric c = c := by
  unfold fillColNumeric
  split
  · cases hmed : median (numsOf c) with
    | none => rfl
    | some m =>
        have hcells : c.cells.map (fun x => if x.isNA then Cell.num m else x) = c.cells := by
          apply map_id_on
          intro x hx
          have hxna : ¬ x.isNA = true := (List.countP_eq_zero.mp h) x hx
          rw [if_neg hxna]
        show Col.mk c.name c.kind (c.cells.map (fun x => if x.isNA then Cell.num m else x)) = c
        rw [hcells]
  · rfl

/-- The object fill does nothing on a column without missing values. -/
lemma fillColObject_id (c : Col) (h : missingCount c = 0) : fillColObject c = c := by
  unfold fillColObject
  rw [if_neg (fun hand => absurd hand.2 (by omega))]

/-- Pruning does nothing on a frame without missing values. -/
lemma pruneCols_id (E : DF) (h : ∀ c ∈ E.cols, missingCount c = 0) : pruneCols E = E := by
  unfold pruneCols
  have hfil : E.cols.filter
      (fun c => !decide ((4 : ℚ) / 5 < (missingCount c : ℚ) / (E.nrows : ℚ))) = E.cols := by
    apply List.filter_eq_self.mpr
    intro c hc
    rw [h c hc]
    norm_num
  rw [hfil]

/-- Every column of a rebuilt frame has one cell per kept row. -/
lemma rebuild_lengths (p : DF) (rs : List (List Cell)) :
    ∀ c ∈ (rebuild p rs).cols, c.cells.length = (rebuild p rs).nrows := by
  intro c hc
  simp only [rebuild] at hc
  rcases List.mem_map.mp hc with ⟨ic, _, hfc⟩
  rw [← hfc]
  simp [rebuild]

/-- The rows of the deduplicated frame are the deduplicated rows. -/
lemma rowsOf_dropDuplicates (p : DF) :
    (dropDuplicates p).rowsOf = dedupFirst p.rowsOf := by
  apply rowsOf_rebuild
  intro r hr
  exact length_of_mem_rowsOf p r (mem_of_mem_dedupAux hr)

/-- Claim C1 counterexample: the well-formed frame `dfC1` (one
datetime-like column, one numeric column) is not a fixed point of a
second cleaning pass — duplicate-row removal raises the datetime column's
missing fraction from 5/7 to 5/6, so the second pass drops it. -/
theorem clean_not_idempotent :
    dfC1.WF ∧
    simple_clean_dataframe (simple_clean_dataframe dfC1) ≠ simple_clean_dataframe dfC1 := by
  exact ⟨by decide, by with_unfolding_all decide⟩

/-- Claim C1 (amended): cleaning is idempotent on every well-formed frame
whose columns are all numeric or object (categorical) — the kinds the
imputation steps cover.  A second pass drops no further column, fills
nothing, and removes no further row.  (With an "other"-kind column, such
as a datetime column, duplicate removal can push the column's missing
fraction above the 80 percent threshold and a second pass drops it, as
`clean_not_idempotent` shows.) -/
theorem clean_idempotent (df : DF) (hwf : df.WF)
    (hk : ∀ c ∈ df.cols, c.kind ≠ ColKind.other) :
    simple_clean_dataframe (simple_clean_dataframe df) = simple_clean_dataframe df := by
  have hmz : ∀ c ∈ (simple_clean_dataframe df).cols, missingCount c = 0 := by
    intro c hc
    obtain ⟨c0, hc0, hkind, hz⟩ := clean_col_spec df hwf c hc
    apply hz
    cases h : c0.kind with
    | numeric => exact Or.inl rfl
    | object => exact Or.inr rfl
    | other => exact absurd h (hk c0 hc0)
  have hlenE : ∀ c ∈ (simple_clean_dataframe df).cols,
      c.cells.length = (simple_clean_dataframe df).nrows := by
    rw [simple_clean_eq df]
    exact rebuild_lengths _ _
  have hrows : (simple_clean_dataframe df).rowsOf.Nodup := by
    rw [simple_clean_eq df, rowsOf_dropDuplicates]
    exact nodup_dedupAux _ _
  rw [simple_clean_eq (simple_clean_dataframe df)]
  rw [pruneCols_id _ hmz]
  have h4 : (simple_clean_dataframe df).cols.map
      (fun c => fillColObject (fillColNumeric c)) = (simple_clean_dataframe df).cols := by
    apply map_id_on
    intro c hc
    rw [fillColNumeric_id c (hmz c hc), fillColObject_id c (hmz c hc)]
  rw [h4]
  show dropDuplicates (simple_clean_dataframe df) = simple_clean_dataframe df
  unfold dropDuplicates
  rw [dedupFirst_eq_self _ hrows]
  exact rebuild_rowsOf _ hlenE

/-- Witness for `clean_idempotent` at the concrete frame `dfW`. -/
theorem clean_idempotent_witness :
    (dfW.WF ∧ ∀ c ∈ dfW.cols, c.kind ≠ ColKind.other) ∧
    simple_clean_dataframe (simple_clean_dataframe dfW) = simple_clean_dataframe dfW :=
  ⟨⟨by decide, by decide⟩, clean_idempotent dfW (by decide) (by decide)⟩
